import Mathlib

/-!
Shallow embedding of the `bananavirt` modular-synthesizer engine
(`src/engine.rs`, `src/module.rs`, `src/serge_modules.rs`,
`src/envelope_generator.rs`) and proofs about its specification.

Modelling conventions:
* Rust `f32` sample values and parameters are modelled as `ℚ` (exact
  arithmetic standing in for floating point); the only transcendental
  (the filter's tangent) is handled over `ℝ` where the relevant algebraic
  identity is exact, and abstracted as a function parameter where the
  filter participates in executable engine runs.
* `Uuid` module identifiers are modelled as `ℕ` with a freshness
  hypothesis at registration (matching `Uuid::new_v4` uniqueness).
* A Rust panic (out-of-bounds index, missing `HashMap` key) is modelled
  by `Option.none`.
-/

/-! ## SergeVCO (`serge_modules.rs` lines 5-53) -/

/-- Mutable state of `SergeVCO`: base frequency, FM amount, phase. -/
structure SergeVCO where
  frequency : ℚ
  fm_amount : ℚ
  phase : ℚ
deriving DecidableEq

/-- The per-sample loop of `SergeVCO::process` (lines 37-43): for each
output slot, `phase += frequency / 44100.0`, a single `-= 1.0` wrap when
`phase >= 1.0`, output `(phase * 2.0 - 1.0) * 5.0`.  Returns the final
phase and the output buffer. -/
def sergeVCOrun (freq : ℚ) : ℕ → ℚ → ℚ × List ℚ
  | 0, phase => (phase, [])
  | n+1, phase =>
    let p1 := phase + freq / 44100
    let p2 := if 1 ≤ p1 then p1 - 1 else p1
    let r := sergeVCOrun freq n p2
    (r.1, ((p2 * 2 - 1) * 5) :: r.2)

/-- Model of `SergeVCO::process` (lines 32-44): reads `inputs[0]` and `inputs[1]`
of the concatenated input buffer once, computes a single frequency
`frequency * (1 + fm_input) * (1 + eg_input)` for the whole buffer, and
runs the per-sample loop.  `n` is the output-buffer length.  (In the
engine, `inputs` is the row-major concatenation of the per-port buffers,
so with buffer size > 1 the element `inputs[1]` is the second FM sample,
not the envelope input.) -/
def sergeVCOprocess (s : SergeVCO) (inputs : List ℚ) (n : ℕ) : SergeVCO × List ℚ :=
  let fm_input := inputs.getD 0 0 * s.fm_amount
  let eg_input := inputs.getD 1 0
  let frequency := s.frequency * (1 + fm_input) * (1 + eg_input)
  let r := sergeVCOrun frequency n s.phase
  ({ s with phase := r.1 }, r.2)

/-- Modelled from the spec (§4.4): the claimed per-sample effective
frequency `baseFrequency × (1 + fm[k] × fmAmount) × (1 + eg[k])`, where
`fm[k]` is sample `k` of input port 0 and `eg[k]` sample `k` of input
port 1 of the row-major concatenated buffer with stride `bs`.  Used only
to compare the claim with the source behaviour. -/
def sergeVCOclaimedFreq (s : SergeVCO) (inputs : List ℚ) (bs k : ℕ) : ℚ :=
  s.frequency * (1 + inputs.getD k 0 * s.fm_amount) * (1 + inputs.getD (bs + k) 0)

/-! ## SergeVCF (`serge_modules.rs` lines 55-104) -/

/-- Mutable state of `SergeVCF`: base cutoff, resonance, filter memory. -/
structure SergeVCF where
  cutoff : ℚ
  resonance : ℚ
  last_output : ℚ
deriving DecidableEq

/-- The coefficient computed by `SergeVCF::process` line 89, over `ℝ`
with the real tangent standing in for `f32::tan`:
`(2π·cutoff/44100).tan() / (2π·cutoff/44100).tan() + 1.0`.
Note the source expression parses as `(tan w / tan w) + 1`, not
`tan w / (tan w + 1)`. -/
noncomputable def sergeVCFalpha (cutoff : ℝ) : ℝ :=
  Real.tan (2 * Real.pi * cutoff / 44100) / Real.tan (2 * Real.pi * cutoff / 44100) + 1

/-- The per-sample loop of `SergeVCF::process` (lines 91-94):
`last_output += alpha * (input - last_output)`, output `last_output * 5.0`. -/
def sergeVCFrun (alpha input : ℚ) : ℕ → ℚ → ℚ × List ℚ
  | 0, last => (last, [])
  | n+1, last =>
    let l := last + alpha * (input - last)
    let r := sergeVCFrun alpha input n l
    (r.1, (l * 5) :: r.2)

/-- Model of `SergeVCF::process` (lines 82-95) over `ℚ`.  The `f32` computation
`(2π·cutoff/44100).tan()` is abstracted as the function parameter
`ftan` applied to the clamped effective cutoff; the source then divides
that value by itself and adds one (the self-cancelling expression of
line 89). -/
def sergeVCFprocess (ftan : ℚ → ℚ) (s : SergeVCF) (inputs : List ℚ) (n : ℕ) :
    SergeVCF × List ℚ :=
  let input := inputs.getD 0 0
  let cutoff_cv := inputs.getD 1 0
  let eg_input := inputs.getD 2 0
  let cutoff := min (max (s.cutoff * (1 + cutoff_cv) * (1 + eg_input)) 20) 20000
  let t := ftan cutoff
  let alpha := t / t + 1
  let r := sergeVCFrun alpha input n s.last_output
  ({ s with last_output := r.1 }, r.2)

/-! ## EnvelopeGenerator (`envelope_generator.rs`) -/

/-- The stage enum `EnvelopeStage` (lines 16-22). -/
inductive EnvelopeStage where
  | Idle
  | Attack
  | Decay
  | Sustain
  | Release
deriving DecidableEq

/-- Mutable state of `EnvelopeGenerator` (lines 5-14). -/
structure EnvelopeGenerator where
  attack : ℚ
  decay : ℚ
  sustain : ℚ
  release : ℚ
  stage : EnvelopeStage
  current_level : ℚ
  gate : Bool
deriving DecidableEq

/-- The constant `1.0 / 44100.0`, the hard-coded sample period (line 67). -/
def sampleTime : ℚ := 1 / 44100

/-- Model of `trigger_on` (lines 54-57): gate := true, stage := Attack,
everything else untouched. -/
def trigger_on (e : EnvelopeGenerator) : EnvelopeGenerator :=
  { e with gate := true, stage := EnvelopeStage.Attack }

/-- Model of `trigger_off` (lines 59-62): gate := false, stage := Release. -/
def trigger_off (e : EnvelopeGenerator) : EnvelopeGenerator :=
  { e with gate := false, stage := EnvelopeStage.Release }

/-- One iteration of the per-sample `match` in
`EnvelopeGenerator::process` (lines 70-98). -/
def envStep (e : EnvelopeGenerator) : EnvelopeGenerator :=
  match e.stage with
  | EnvelopeStage.Idle => { e with current_level := 0 }
  | EnvelopeStage.Attack =>
    let l := e.current_level + sampleTime / e.attack
    if 1 ≤ l then { e with current_level := 1, stage := EnvelopeStage.Decay }
    else { e with current_level := l }
  | EnvelopeStage.Decay =>
    let l := e.current_level - sampleTime / e.decay * (1 - e.sustain)
    if l ≤ e.sustain then { e with current_level := e.sustain, stage := EnvelopeStage.Sustain }
    else { e with current_level := l }
  | EnvelopeStage.Sustain => { e with current_level := e.sustain }
  | EnvelopeStage.Release =>
    let l := e.current_level - sampleTime / e.release * e.sustain
    if l ≤ 0 then { e with current_level := 0, stage := EnvelopeStage.Idle }
    else { e with current_level := l }

/-- Iteration of `envStep`, `n` times. -/
def envStepN : ℕ → EnvelopeGenerator → EnvelopeGenerator
  | 0, e => e
  | n+1, e => envStepN n (envStep e)

/-- The per-sample loop of `EnvelopeGenerator::process` (lines 69-101):
each iteration steps the state machine and emits `current_level * 5.0`. -/
def envProcessRun : ℕ → EnvelopeGenerator → EnvelopeGenerator × List ℚ
  | 0, e => (e, [])
  | n+1, e =>
    let e1 := envStep e
    let r := envProcessRun n e1
    (r.1, (e1.current_level * 5) :: r.2)

/-- Model of `EnvelopeGenerator::process` (lines 66-102).  The `inputs` slice is
a parameter of the Rust signature but no statement of the body reads it. -/
def envProcess (e : EnvelopeGenerator) (inputs : List ℚ) (n : ℕ) :
    EnvelopeGenerator × List ℚ :=
  envProcessRun n e

/-- The construction defaults of `EnvelopeGenerator::new` (lines 26-35):
attack 0.01, decay 0.1, sustain 0.5, release 0.2, Idle, level 0, gate off. -/
def egNew : EnvelopeGenerator :=
  { attack := 1/100, decay := 1/10, sustain := 1/2, release := 1/5,
    stage := EnvelopeStage.Idle, current_level := 0, gate := false }

/-! ## Connection graph and topological sort (`engine.rs`)

`petgraph::DiGraph<ModuleId, (usize, usize)>` is modelled by the number
of nodes (indices are consecutive, nodes are never removed), the list of
node weights, and the list of edges in insertion order.
`petgraph::algo::toposort` is modelled by a Kahn-style sort `kahn`; the
claims only depend on its contract (succeeds exactly on acyclic graphs,
and any successful result is a topological order), which is proved
below, not on the particular order produced. -/

/-- A directed edge of the module graph: endpoint node indices plus the
`(source_output, dest_input)` weight (`engine.rs` line 13). -/
structure Edge where
  src : ℕ
  dst : ℕ
  srcOut : ℕ
  dstIn : ℕ
deriving DecidableEq

/-- Relation `Reaches edges a b`: there is a nonempty directed path from `a` to
`b` through `edges`. -/
inductive Reaches (edges : List Edge) : ℕ → ℕ → Prop where
  | single {a b : ℕ} (ed : Edge) (hmem : ed ∈ edges) (hs : ed.src = a)
      (hd : ed.dst = b) : Reaches edges a b
  | tail {a b c : ℕ} (h : Reaches edges a b) (ed : Edge) (hmem : ed ∈ edges)
      (hs : ed.src = b) (hd : ed.dst = c) : Reaches edges a c

/-- A graph is acyclic when no node reaches itself by a nonempty path. -/
def Acyclic (edges : List Edge) : Prop := ∀ v, ¬ Reaches edges v v

/-- Test whether `v` has no incoming edge whose source is still in `S`. -/
def noIncoming (edges : List Edge) (S : List ℕ) (v : ℕ) : Bool :=
  !(edges.any (fun ed => ed.dst == v && S.contains ed.src))

/-- Kahn's algorithm on the remaining-node list `S` with explicit fuel:
repeatedly remove a node with no incoming edge from the remaining set;
fail (cycle) when no such node exists while nodes remain. -/
def kahnAux (edges : List Edge) : ℕ → List ℕ → Option (List ℕ)
  | 0, S => if S.isEmpty then some [] else none
  | fuel+1, S =>
    match S.find? (noIncoming edges S) with
    | none => if S.isEmpty then some [] else none
    | some v => (kahnAux edges fuel (S.erase v)).map (fun l => v :: l)

/-- Topological sort of the graph with nodes `0, …, n-1`, modelling
`petgraph::algo::toposort` (`Ok` ↦ `some`, `Err(Cycle)` ↦ `none`). -/
def kahn (n : ℕ) (edges : List Edge) : Option (List ℕ) :=
  kahnAux edges n (List.range n)

/-- Index of the first occurrence of `v` in a list (length of the list
when absent). -/
def posIn : List ℕ → ℕ → ℕ
  | [], _ => 0
  | x :: xs, v => if x = v then 0 else posIn xs v + 1

/-! ## AudioEngine (`engine.rs` lines 9-98)

The engine is generic over the module payload `M`, mirroring the Rust
`Arc<Mutex<dyn Module>>` trait objects; the concrete dispatch table
(`ModuleImpl`) carries the declared input count and the `process`
implementation. -/

/-- The `AudioEngine` fields (lines 9-17).  The `HashMap<ModuleId, _>`
registry is an association list (`insertAssoc` replaces an existing
key, `lookupAssoc` finds it); the audio queues belong to the excluded
I/O layer and carry no engine-visible state. -/
structure AudioEngine (M : Type) where
  sample_rate : ℚ
  buffer_size : ℕ
  nodeIds : List ℕ
  modules : List (ℕ × M)
  edges : List Edge
  processing_order : List ℕ

/-- The `dyn Module` dispatch used by the engine: declared input-port
count (line 71) and `process` producing the new module state and the
output buffer of requested length (line 85). -/
structure ModuleImpl (M : Type) where
  inputCount : M → ℕ
  proc : M → List ℚ → ℕ → M × List ℚ

/-- Model of `HashMap::insert`: replaces any entry with the same key. -/
def insertAssoc {α : Type} (l : List (ℕ × α)) (k : ℕ) (v : α) : List (ℕ × α) :=
  (k, v) :: l.filter (fun p => !(p.1 == k))

/-- Model of `HashMap::get`. -/
def lookupAssoc {α : Type} (l : List (ℕ × α)) (k : ℕ) : Option α :=
  (l.find? (fun p => p.1 == k)).map (fun p => p.2)

/-- Model of `AudioEngine::new` (lines 20-30): empty registry, graph and order. -/
def AudioEngine.new (M : Type) (sr : ℚ) (bs : ℕ) : AudioEngine M :=
  { sample_rate := sr, buffer_size := bs, nodeIds := [], modules := [],
    edges := [], processing_order := [] }

/-- Model of `AudioEngine::update_processing_order` (lines 54-64): on toposort
success replace the cached order; on cycle detection keep the previous
order (the source only logs the error). -/
def updateProcessingOrder {M : Type} (e : AudioEngine M) : AudioEngine M :=
  match kahn e.nodeIds.length e.edges with
  | some o => { e with processing_order := o }
  | none => e

/-- Model of `AudioEngine::add_module` (lines 32-38): add a graph node carrying
the module's id, insert the module into the registry, recompute the
order, return the id. -/
def addModule {M : Type} (e : AudioEngine M) (id : ℕ) (m : M) :
    AudioEngine M × ℕ :=
  let e1 := { e with nodeIds := e.nodeIds ++ [id],
                     modules := insertAssoc e.modules id m }
  (updateProcessingOrder e1, id)

/-- Model of `node_indices().find(|&n| graph[n] == w)`: index of the first node
whose weight is `w`. -/
def findNodeIdx (w : ℕ) : List ℕ → Option ℕ
  | [] => none
  | x :: xs => if x = w then some 0 else (findNodeIdx w xs).map (fun i => i + 1)

/-- Model of `AudioEngine::connect_modules` (lines 40-48): if both identities
resolve to nodes, append the annotated edge and recompute the order;
otherwise do nothing.  No validation of the port indices, no error
value of any kind is produced. -/
def connectModules {M : Type} (e : AudioEngine M)
    (source source_output destination dest_input : ℕ) : AudioEngine M :=
  match findNodeIdx source e.nodeIds, findNodeIdx destination e.nodeIds with
  | some si, some di =>
    updateProcessingOrder
      { e with edges := e.edges ++ [⟨si, di, source_output, dest_input⟩] }
  | _, _ => e

/-- Slot assignment `inputs[dest_input] = buf` (line 78); `none` models
the Rust index panic when `dest_input` is out of bounds. -/
def setSlot (ins : List (List ℚ)) (i : ℕ) (buf : List ℚ) :
    Option (List (List ℚ)) :=
  if i < ins.length then some (ins.set i buf) else none

/-- The incoming-edge loop of `process` (lines 74-80): for each incoming
edge, if the source module already produced output this cycle, copy it
into the destination slot.  `petgraph` iterates incoming edges newest
first, so the caller passes the reversed filtered edge list. -/
def gatherInputs (nodeIds : List ℕ) (outs : List (ℕ × List ℚ)) :
    List Edge → List (List ℚ) → Option (List (List ℚ))
  | [], ins => some ins
  | ed :: rest, ins =>
    match lookupAssoc outs (nodeIds.getD ed.src 0) with
    | some buf =>
      match setSlot ins ed.dstIn buf with
      | some ins1 => gatherInputs nodeIds outs rest ins1
      | none => none
    | none => gatherInputs nodeIds outs rest ins

/-- The body of the processing loop for one node (lines 70-89): fetch
the module (the indexing `self.modules[&module_id]` on line 71 panics
when the id is unregistered, hence `none`), build the zeroed per-port
input buffers, fill the slots from incoming edges, run the module on the
concatenated buffer, and record state and output. -/
def processNode {M : Type} (impl : ModuleImpl M) (bs : ℕ) (nodeIds : List ℕ)
    (edges : List Edge) (mods : List (ℕ × M)) (outs : List (ℕ × List ℚ))
    (v : ℕ) : Option (List (ℕ × M) × List (ℕ × List ℚ)) :=
  let mid := nodeIds.getD v 0
  match lookupAssoc mods mid with
  | none => none
  | some m =>
    let ins0 := List.replicate (impl.inputCount m) (List.replicate bs (0:ℚ))
    match gatherInputs nodeIds outs ((edges.filter (fun ed => ed.dst == v)).reverse) ins0 with
    | none => none
    | some ins =>
      let r := impl.proc m ins.flatten bs
      some (insertAssoc mods mid r.1, insertAssoc outs mid r.2)

/-- The walk over the cached processing order (line 69). -/
def processLoop {M : Type} (impl : ModuleImpl M) (bs : ℕ) (nodeIds : List ℕ)
    (edges : List Edge) :
    List ℕ → List (ℕ × M) → List (ℕ × List ℚ) →
    Option (List (ℕ × M) × List (ℕ × List ℚ))
  | [], mods, outs => some (mods, outs)
  | v :: rest, mods, outs =>
    match processNode impl bs nodeIds edges mods outs v with
    | none => none
    | some st => processLoop impl bs nodeIds edges rest st.1 st.2

/-- Model of `AudioEngine::process` (lines 66-98): walk the order, then return
the output recorded for the last module in the order (zeros when the
order is empty or the lookup fails).  The second component is `none`
exactly when the Rust code panics. -/
def processEngine {M : Type} (impl : ModuleImpl M) (e : AudioEngine M) :
    AudioEngine M × Option (List ℚ) :=
  match processLoop impl e.buffer_size e.nodeIds e.edges e.processing_order
      e.modules [] with
  | none => (e, none)
  | some st =>
    let out :=
      match e.processing_order.getLast? with
      | some v =>
        (lookupAssoc st.2 (e.nodeIds.getD v 0)).getD
          (List.replicate e.buffer_size 0)
      | none => List.replicate e.buffer_size 0
    ({ e with modules := st.1 }, some out)

/-- States reachable through the engine's mutating interface: a fresh
engine, `add_module` with a fresh identity (`Uuid::new_v4` never
collides), and `connect_modules`. -/
inductive Reachable {M : Type} : AudioEngine M → Prop where
  | new (sr : ℚ) (bs : ℕ) : Reachable (AudioEngine.new M sr bs)
  | add {e : AudioEngine M} (id : ℕ) (m : M) (h : Reachable e)
      (hfresh : id ∉ e.nodeIds) : Reachable (addModule e id m).1
  | connect {e : AudioEngine M} (s so d di : ℕ) (h : Reachable e) :
      Reachable (connectModules e s so d di)

/-! ## The concrete module universe of the program (`main.rs`) -/

/-- The three module variants registered by the program. -/
inductive SynthModule where
  | vco : SergeVCO → SynthModule
  | vcf : SergeVCF → SynthModule
  | eg : EnvelopeGenerator → SynthModule
deriving DecidableEq

/-- Declared input counts (`ModuleBase::new` calls: VCO 2, VCF 3, EG 1). -/
def synthInputCount : SynthModule → ℕ
  | SynthModule.vco _ => 2
  | SynthModule.vcf _ => 3
  | SynthModule.eg _ => 1

/-- Dynamic dispatch of `Module::process` over the three variants; the
filter's `f32` tangent is the abstract parameter `ftan`. -/
def synthProc (ftan : ℚ → ℚ) : SynthModule → List ℚ → ℕ → SynthModule × List ℚ
  | SynthModule.vco s, ins, n =>
    let r := sergeVCOprocess s ins n; (SynthModule.vco r.1, r.2)
  | SynthModule.vcf s, ins, n =>
    let r := sergeVCFprocess ftan s ins n; (SynthModule.vcf r.1, r.2)
  | SynthModule.eg s, ins, n =>
    let r := envProcess s ins n; (SynthModule.eg r.1, r.2)

/-- The dispatch table used by concrete engine runs. -/
def synthImpl (ftan : ℚ → ℚ) : ModuleImpl SynthModule :=
  { inputCount := synthInputCount, proc := synthProc ftan }

/-! ## Concrete states used by counterexamples and witnesses -/

/-- An envelope stuck in Release: clamped parameters with sustain 0 and
a positive level (reachable by `set_sustain(0.0)`, `trigger_on`, a few
samples of Attack, then `trigger_off`). -/
def egStuck : EnvelopeGenerator :=
  { egNew with sustain := 0, stage := EnvelopeStage.Release, current_level := 1/2 }

/-- An envelope sitting in Decay at the level where Decay begins. -/
def egDecayTop : EnvelopeGenerator :=
  { egNew with stage := EnvelopeStage.Decay, current_level := 1 }

/-- An envelope in Release with positive sustain. -/
def egRel : EnvelopeGenerator :=
  { egNew with stage := EnvelopeStage.Release, current_level := 1/2 }

/-- Two registered modules (ids 0 and 1), no edges yet; the module
payload is irrelevant to topology operations, mirroring `dyn Module`. -/
def engTwo : AudioEngine Unit :=
  (addModule (addModule (AudioEngine.new Unit 44100 2) 0 ()).1 1 ()).1

/-- State `engTwo` plus the edge node 0 → node 1: an acyclic graph. -/
def engAcyclic : AudioEngine Unit := connectModules engTwo 0 0 1 0

/-- The constant-zero stand-in for the filter tangent in executable
engine runs (its value is irrelevant to the claims exercised). -/
def ftanZero : ℚ → ℚ := fun _ => 0

/-- Two envelope-generator modules (ids 0, 1) in an engine with buffer
size 1. -/
def engTwoEG : AudioEngine SynthModule :=
  (addModule (addModule (AudioEngine.new SynthModule 44100 1) 0
    (SynthModule.eg egNew)).1 1 (SynthModule.eg egNew)).1

/-- State `engTwoEG` after `connect_modules(0, 0, 1, 5)`: the destination
input index 5 exceeds the envelope generator's declared single input
port, yet the call stores the edge. -/
def engBadPort : AudioEngine SynthModule := connectModules engTwoEG 0 0 1 5

/-- A single envelope-generator module (id 7) in an engine with buffer
size 4. -/
def engOneEG : AudioEngine SynthModule :=
  (addModule (AudioEngine.new SynthModule 44100 4) 7 (SynthModule.eg egNew)).1

/-! ## Basic facts about the envelope state machine -/

/-- Step function `envStep` only writes `current_level` and `stage`; parameters and
gate are untouched. -/
theorem envStep_params (e : EnvelopeGenerator) :
    (envStep e).attack = e.attack ∧ (envStep e).decay = e.decay
    ∧ (envStep e).sustain = e.sustain ∧ (envStep e).release = e.release
    ∧ (envStep e).gate = e.gate := by
  rcases e with ⟨a, d, s, r, st, l, g⟩
  cases st <;> dsimp [envStep] <;> (try split_ifs) <;>
    exact ⟨rfl, rfl, rfl, rfl, rfl⟩

/-- Unfolding of `envStepN` at the far end. -/
theorem envStepN_succ (n : ℕ) (e : EnvelopeGenerator) :
    envStepN (n+1) e = envStep (envStepN n e) := by
  induction n generalizing e with
  | zero => rfl
  | succ n ih =>
    show envStepN (n+1) (envStep e) = envStep (envStepN (n+1) e)
    rw [ih (envStep e)]
    rfl

/-- Parameters are constant along any trajectory. -/
theorem envStepN_params (n : ℕ) (e : EnvelopeGenerator) :
    (envStepN n e).attack = e.attack ∧ (envStepN n e).decay = e.decay
    ∧ (envStepN n e).sustain = e.sustain ∧ (envStepN n e).release = e.release
    ∧ (envStepN n e).gate = e.gate := by
  induction n with
  | zero => exact ⟨rfl, rfl, rfl, rfl, rfl⟩
  | succ n ih =>
    obtain ⟨h1, h2, h3, h4, h5⟩ := ih
    obtain ⟨g1, g2, g3, g4, g5⟩ := envStep_params (envStepN n e)
    rw [envStepN_succ]
    exact ⟨g1.trans h1, g2.trans h2, g3.trans h3, g4.trans h4, g5.trans h5⟩

/-- A fixed point of `envStep` stays fixed forever. -/
theorem envStepN_fix {e : EnvelopeGenerator} (h : envStep e = e) :
    ∀ n, envStepN n e = e := by
  intro n
  induction n with
  | zero => rfl
  | succ n ih => rw [envStepN_succ, ih, h]

/-! ## C7: trigger_on -/

/-- C7: `trigger_on` sets the gate and forces the stage to Attack
unconditionally, leaving the current level (and every parameter)
unchanged, so a retrigger during Release continues from the level held
at the moment of the call. -/
theorem c7_trigger_on_preserves_level :
    ∀ e : EnvelopeGenerator,
      (trigger_on e).gate = true
      ∧ (trigger_on e).stage = EnvelopeStage.Attack
      ∧ (trigger_on e).current_level = e.current_level
      ∧ (trigger_on e).attack = e.attack ∧ (trigger_on e).decay = e.decay
      ∧ (trigger_on e).sustain = e.sustain ∧ (trigger_on e).release = e.release :=
  fun _ => ⟨rfl, rfl, rfl, rfl, rfl, rfl, rfl⟩

/-! ## C10: the envelope generator never reads its input -/

/-- C10: `EnvelopeGenerator::process` is independent of the input
buffer: from equal states, any two input buffers yield identical output
buffers and identical successor states; moreover the gate is never
changed by `process` (only `trigger_on`/`trigger_off` write it). -/
theorem c10_env_input_independent :
    (∀ (e : EnvelopeGenerator) (ins1 ins2 : List ℚ) (n : ℕ),
        envProcess e ins1 n = envProcess e ins2 n)
    ∧ (∀ (e : EnvelopeGenerator) (ins : List ℚ) (n : ℕ),
        (envProcess e ins n).1.gate = e.gate) := by
  constructor
  · intro e ins1 ins2 n
    rfl
  · intro e ins n
    show (envProcessRun n e).1.gate = e.gate
    induction n generalizing e with
    | zero => rfl
    | succ n ih =>
      show (envProcessRun n (envStep e)).1.gate = e.gate
      rw [ih (envStep e), (envStep_params e).2.2.2.2]

/-! ## C1: the filter coefficient -/

/-- C1: the coefficient actually computed by `SergeVCF::process` is the
constant 2 — `tan w / tan w + 1` parses as `(tan w / tan w) + 1` — so it
does not vary between the distinct in-range cutoffs 100 Hz and 1000 Hz
and never lies in (0, 1).  (The spec's intended bilinear mapping
`wc/(wc+1)` was mistyped in the source.) -/
theorem c1_alpha_constant :
    sergeVCFalpha 100 = 2 ∧ sergeVCFalpha 1000 = 2
    ∧ ¬ (0 < sergeVCFalpha 100 ∧ sergeVCFalpha 100 < 1) := by
  have hpi := Real.pi_pos
  have h100 : Real.tan (2 * Real.pi * 100 / 44100) ≠ 0 := by
    have h1 : (0:ℝ) < 2 * Real.pi * 100 / 44100 := by positivity
    have h2 : 2 * Real.pi * 100 / 44100 < Real.pi / 2 := by linarith
    exact ne_of_gt (Real.tan_pos_of_pos_of_lt_pi_div_two h1 h2)
  have h1000 : Real.tan (2 * Real.pi * 1000 / 44100) ≠ 0 := by
    have h1 : (0:ℝ) < 2 * Real.pi * 1000 / 44100 := by positivity
    have h2 : 2 * Real.pi * 1000 / 44100 < Real.pi / 2 := by linarith
    exact ne_of_gt (Real.tan_pos_of_pos_of_lt_pi_div_two h1 h2)
  have e100 : sergeVCFalpha 100 = 2 := by
    unfold sergeVCFalpha
    rw [div_self h100]
    norm_num
  have e1000 : sergeVCFalpha 1000 = 2 := by
    unfold sergeVCFalpha
    rw [div_self h1000]
    norm_num
  refine ⟨e100, e1000, ?_⟩
  rw [e100]
  intro h
  linarith [h.2]

/-! ## C4: the VCO frequency computation -/

/-- C4: with buffer size 2 and concatenated inputs `[fm0, fm1, eg0, eg1]
= [0, 3, 0, 0]`, the source computes the single whole-buffer frequency
`440 × (1 + 0·1) × (1 + 3) = 1760` — reading `inputs[1]`, which is FM
sample 1, as the envelope input — and already the first output sample
reflects 1760 Hz, whereas the claimed per-sample formula gives
`440 × (1 + fm[0]·1) × (1 + eg[0]) = 440` at position 0. -/
theorem c4_vco_buffer_frequency :
    ((sergeVCOprocess ⟨440, 1, 0⟩ [0, 3, 0, 0] 2).2.getD 0 0
        = ((1760 / 44100 : ℚ) * 2 - 1) * 5)
    ∧ sergeVCOclaimedFreq ⟨440, 1, 0⟩ [0, 3, 0, 0] 2 0 = 440
    ∧ ((1760 / 44100 : ℚ) * 2 - 1) * 5 ≠ ((440 / 44100 : ℚ) * 2 - 1) * 5 := by
  refine ⟨?_, ?_, ?_⟩
  · norm_num [sergeVCOprocess, sergeVCOrun]
  · norm_num [sergeVCOclaimedFreq]
  · norm_num

/-! ## C5: VCO phase and output bounds -/

/-- C5 fails as stated: from phase 0 (in [0,1)) a single sample with FM
input 200 drives the effective frequency to 88440 Hz; one `-= 1.0`
subtraction cannot wrap the increment, the stored phase ends at
739/735 ≥ 1 and the emitted sample exceeds 5 V in magnitude. -/
theorem c5_counterexample :
    ((0:ℚ) ≤ 0 ∧ (0:ℚ) < 1)
    ∧ 1 ≤ (sergeVCOprocess ⟨440, 1, 0⟩ [200, 0] 1).1.phase
    ∧ 5 < |(sergeVCOprocess ⟨440, 1, 0⟩ [200, 0] 1).2.getD 0 0| := by
  refine ⟨by norm_num, ?_, ?_⟩
  · norm_num [sergeVCOprocess, sergeVCOrun]
  · norm_num [sergeVCOprocess, sergeVCOrun, abs]

/-- Invariant of the VCO sample loop: when the per-buffer increment
`freq / 44100` lies in `[0, 1)`, a phase in `[0, 1)` stays in `[0, 1)`
after every sample and each emitted sample has magnitude at most 5. -/
theorem sergeVCOrun_bounds (freq : ℚ) (hf0 : 0 ≤ freq) (hf1 : freq < 44100) :
    ∀ (n : ℕ) (phase : ℚ), 0 ≤ phase → phase < 1 →
      (0 ≤ (sergeVCOrun freq n phase).1 ∧ (sergeVCOrun freq n phase).1 < 1)
      ∧ ∀ o ∈ (sergeVCOrun freq n phase).2, |o| ≤ 5 := by
  have hd0 : 0 ≤ freq / 44100 := by positivity
  have hd1 : freq / 44100 < 1 := by
    rw [div_lt_one (by norm_num : (0:ℚ) < 44100)]
    exact hf1
  intro n
  induction n with
  | zero =>
    intro phase h0 h1
    exact ⟨⟨h0, h1⟩, by intro o ho; simp [sergeVCOrun] at ho⟩
  | succ n ih =>
    intro phase h0 h1
    simp only [sergeVCOrun]
    have hp : 0 ≤ (if 1 ≤ phase + freq / 44100 then phase + freq / 44100 - 1
          else phase + freq / 44100)
        ∧ (if 1 ≤ phase + freq / 44100 then phase + freq / 44100 - 1
          else phase + freq / 44100) < 1 := by
      split_ifs with hc
      · constructor <;> linarith
      · exact ⟨by linarith, not_le.mp hc⟩
    have H := ih _ hp.1 hp.2
    refine ⟨H.1, ?_⟩
    intro o ho
    rcases List.mem_cons.mp ho with rfl | hmem
    · exact abs_le.mpr ⟨by linarith [hp.1], by linarith [hp.2]⟩
    · exact H.2 o hmem

/-- C5, amended: the stored phase stays in `[0, 1)` and every emitted
sample has magnitude at most 5, provided the effective frequency
computed from the first two entries of the input buffer is nonnegative
and below the 44100 Hz sample rate (for larger or negative effective
frequencies the single-subtraction wrap fails; see the
counterexample). -/
theorem c5_phase_bounded (s : SergeVCO) (inputs : List ℚ) (n : ℕ)
    (h0 : 0 ≤ s.phase) (h1 : s.phase < 1)
    (hf0 : 0 ≤ s.frequency * (1 + inputs.getD 0 0 * s.fm_amount) * (1 + inputs.getD 1 0))
    (hf1 : s.frequency * (1 + inputs.getD 0 0 * s.fm_amount) * (1 + inputs.getD 1 0) < 44100) :
    (0 ≤ (sergeVCOprocess s inputs n).1.phase
      ∧ (sergeVCOprocess s inputs n).1.phase < 1)
    ∧ ∀ o ∈ (sergeVCOprocess s inputs n).2, |o| ≤ 5 := by
  have h := sergeVCOrun_bounds _ hf0 hf1 n s.phase h0 h1
  simpa [sergeVCOprocess] using h

/-- Witness for C5 (amended): concrete VCO at 440 Hz, zero control
voltages, three samples. -/
theorem c5_phase_bounded_witness :
    ((0:ℚ) ≤ (⟨440, 1, 0⟩ : SergeVCO).phase
      ∧ (⟨440, 1, 0⟩ : SergeVCO).phase < 1
      ∧ 0 ≤ (440:ℚ) * (1 + (0:ℚ) * 1) * (1 + (0:ℚ))
      ∧ (440:ℚ) * (1 + (0:ℚ) * 1) * (1 + (0:ℚ)) < 44100)
    ∧ ((0 ≤ (sergeVCOprocess ⟨440, 1, 0⟩ [0, 0] 3).1.phase
        ∧ (sergeVCOprocess ⟨440, 1, 0⟩ [0, 0] 3).1.phase < 1)
      ∧ ∀ o ∈ (sergeVCOprocess ⟨440, 1, 0⟩ [0, 0] 3).2, |o| ≤ 5) := by
  constructor
  · norm_num
  · exact c5_phase_bounded ⟨440, 1, 0⟩ [0, 0] 3 (by norm_num) (by norm_num)
      (by norm_num) (by norm_num)

/-! ## C6: Decay and Release behaviour -/

/-- Reduction of `envStep` on a state in Decay. -/
theorem envStep_decay (E : EnvelopeGenerator) (h : E.stage = EnvelopeStage.Decay) :
    envStep E =
      if E.current_level - sampleTime / E.decay * (1 - E.sustain) ≤ E.sustain
      then { E with current_level := E.sustain, stage := EnvelopeStage.Sustain }
      else { E with current_level :=
              E.current_level - sampleTime / E.decay * (1 - E.sustain) } := by
  unfold envStep
  rw [h]

/-- Reduction of `envStep` on a state in Sustain. -/
theorem envStep_sustain (E : EnvelopeGenerator) (h : E.stage = EnvelopeStage.Sustain) :
    envStep E = { E with current_level := E.sustain } := by
  unfold envStep
  rw [h]

/-- Reduction of `envStep` on a state in Release. -/
theorem envStep_release (E : EnvelopeGenerator) (h : E.stage = EnvelopeStage.Release) :
    envStep E =
      if E.current_level - sampleTime / E.release * E.sustain ≤ 0
      then { E with current_level := 0, stage := EnvelopeStage.Idle }
      else { E with current_level :=
              E.current_level - sampleTime / E.release * E.sustain } := by
  unfold envStep
  rw [h]

/-- Reduction of `envStep` on an Idle state. -/
theorem envStep_idle (E : EnvelopeGenerator) (h : E.stage = EnvelopeStage.Idle) :
    envStep E = { E with current_level := 0 } := by
  unfold envStep
  rw [h]

/-- Trajectory of a state launched in Decay: at every step it is either
still in Decay, with the level lowered by exactly
`sampleTime / decay * (1 - sustain)` per sample and still at or above
(after the first step: strictly above) the sustain level, or it has
clamped to the sustain level and moved to Sustain. -/
theorem decay_traj (e : EnvelopeGenerator) (hst : e.stage = EnvelopeStage.Decay)
    (hls : e.sustain ≤ e.current_level) :
    ∀ k : ℕ,
      ((envStepN k e).stage = EnvelopeStage.Decay
        ∧ (envStepN k e).current_level
            = e.current_level - k * (sampleTime / e.decay * (1 - e.sustain))
        ∧ e.sustain ≤ (envStepN k e).current_level
        ∧ (k = 0 ∨ e.sustain < (envStepN k e).current_level))
      ∨ ((envStepN k e).stage = EnvelopeStage.Sustain
        ∧ (envStepN k e).current_level = e.sustain) := by
  intro k
  induction k with
  | zero => exact Or.inl ⟨hst, by simp [envStepN], hls, Or.inl rfl⟩
  | succ k ih =>
    have hparams := envStepN_params k e
    rw [envStepN_succ]
    rcases ih with ⟨hstk, hlev, hge, _⟩ | ⟨hstk, hlev⟩
    · rw [envStep_decay _ hstk]
      by_cases hc : (envStepN k e).current_level
          - sampleTime / (envStepN k e).decay * (1 - (envStepN k e).sustain)
          ≤ (envStepN k e).sustain
      · rw [if_pos hc]
        exact Or.inr ⟨rfl, hparams.2.2.1⟩
      · rw [if_neg hc]
        have hlt0 := not_le.mp hc
        have hsus := hparams.2.2.1
        left
        refine ⟨hstk, ?_, ?_, Or.inr ?_⟩
        · show (envStepN k e).current_level
              - sampleTime / (envStepN k e).decay * (1 - (envStepN k e).sustain) = _
          rw [hlev, hparams.2.1, hsus]
          push_cast
          ring
        · show e.sustain ≤ (envStepN k e).current_level
              - sampleTime / (envStepN k e).decay * (1 - (envStepN k e).sustain)
          linarith
        · show e.sustain < (envStepN k e).current_level
              - sampleTime / (envStepN k e).decay * (1 - (envStepN k e).sustain)
          linarith
    · rw [envStep_sustain _ hstk]
      exact Or.inr ⟨hstk, hparams.2.2.1⟩

/-- In Decay (with clamped parameters) the level never increases. -/
theorem decay_mono (e : EnvelopeGenerator) (hst : e.stage = EnvelopeStage.Decay)
    (hls : e.sustain ≤ e.current_level) (hs1 : e.sustain ≤ 1)
    (hd : 1/1000 ≤ e.decay) :
    ∀ j : ℕ, (envStepN (j+1) e).current_level ≤ (envStepN j e).current_level := by
  intro j
  have hparams := envStepN_params j e
  have hdecpos : (0:ℚ) < e.decay := lt_of_lt_of_le (by norm_num) hd
  have hstep0 : 0 ≤ sampleTime / (envStepN j e).decay * (1 - (envStepN j e).sustain) := by
    rw [hparams.2.1, hparams.2.2.1]
    have h1 : (0:ℚ) ≤ sampleTime / e.decay := by unfold sampleTime; positivity
    nlinarith
  rw [envStepN_succ]
  rcases decay_traj e hst hls j with ⟨hstj, hlevj, hgej, _⟩ | ⟨hstj, hlevj⟩
  · rw [envStep_decay _ hstj]
    by_cases hc : (envStepN j e).current_level
        - sampleTime / (envStepN j e).decay * (1 - (envStepN j e).sustain)
        ≤ (envStepN j e).sustain
    · rw [if_pos hc]
      show (envStepN j e).sustain ≤ _
      rw [hparams.2.2.1]
      exact hgej
    · rw [if_neg hc]
      show (envStepN j e).current_level - _ ≤ (envStepN j e).current_level
      linarith
  · rw [envStep_sustain _ hstj]
    show (envStepN j e).sustain ≤ (envStepN j e).current_level
    rw [hparams.2.2.1, hlevj]

/-- In Decay (with clamped parameters, level at most 1) the state
reaches Sustain with level exactly the sustain level within
`⌈decay · 44100⌉ + 1` samples. -/
theorem decay_reach (e : EnvelopeGenerator) (hst : e.stage = EnvelopeStage.Decay)
    (hls : e.sustain ≤ e.current_level) (hs1 : e.sustain ≤ 1)
    (hd : 1/1000 ≤ e.decay) (hl1 : e.current_level ≤ 1) :
    ∃ k ≤ Nat.ceil (e.decay * 44100) + 1,
      (envStepN k e).stage = EnvelopeStage.Sustain
      ∧ (envStepN k e).current_level = e.sustain := by
  set N := Nat.ceil (e.decay * 44100) + 1 with hN
  rcases decay_traj e hst hls N with ⟨hstN, hlevN, hgeN, hstrict⟩ | hdone
  · exfalso
    have hdecpos : (0:ℚ) < e.decay := lt_of_lt_of_le (by norm_num) hd
    set d := sampleTime / e.decay * (1 - e.sustain) with hdDef
    have hd0 : 0 ≤ d := by
      have h1 : (0:ℚ) ≤ sampleTime / e.decay := by unfold sampleTime; positivity
      rw [hdDef]
      nlinarith
    have hNpos : N ≠ 0 := Nat.succ_ne_zero _
    have hslt : e.sustain < e.current_level - (N:ℚ) * d := by
      rcases hstrict with h0 | hlt
      · exact absurd h0 hNpos
      · rw [hlevN] at hlt
        exact hlt
    have hNd : (N:ℚ) * d < 1 - e.sustain := by linarith
    have hkey : e.decay * 44100 * d = 1 - e.sustain := by
      rw [hdDef]
      unfold sampleTime
      field_simp
      ring
    have hceil : e.decay * 44100 ≤ (Nat.ceil (e.decay * 44100) : ℚ) :=
      Nat.le_ceil _
    have hNge : e.decay * 44100 + 1 ≤ (N:ℚ) := by
      rw [hN]
      push_cast
      linarith
    have h2 : (e.decay * 44100 + 1) * d ≤ (N:ℚ) * d :=
      mul_le_mul_of_nonneg_right hNge hd0
    have h3 : (e.decay * 44100 + 1) * d = (1 - e.sustain) + d := by
      rw [add_mul, one_mul, hkey]
    linarith
  · exact ⟨N, le_refl _, hdone⟩

/-- Trajectory of a state launched in Release: at every step it is
either still in Release, with the level lowered by exactly
`sampleTime / release * sustain` per sample and still nonnegative
(after the first step: strictly positive), or it has clamped to 0 and
moved to Idle. -/
theorem release_traj (e : EnvelopeGenerator)
    (hst : e.stage = EnvelopeStage.Release) (hl0 : 0 ≤ e.current_level) :
    ∀ k : ℕ,
      ((envStepN k e).stage = EnvelopeStage.Release
        ∧ (envStepN k e).current_level
            = e.current_level - k * (sampleTime / e.release * e.sustain)
        ∧ 0 ≤ (envStepN k e).current_level
        ∧ (k = 0 ∨ 0 < (envStepN k e).current_level))
      ∨ ((envStepN k e).stage = EnvelopeStage.Idle
        ∧ (envStepN k e).current_level = 0) := by
  intro k
  induction k with
  | zero => exact Or.inl ⟨hst, by simp [envStepN], hl0, Or.inl rfl⟩
  | succ k ih =>
    have hparams := envStepN_params k e
    rw [envStepN_succ]
    rcases ih with ⟨hstk, hlev, hge, _⟩ | ⟨hstk, hlev⟩
    · rw [envStep_release _ hstk]
      by_cases hc : (envStepN k e).current_level
          - sampleTime / (envStepN k e).release * (envStepN k e).sustain ≤ 0
      · rw [if_pos hc]
        exact Or.inr ⟨rfl, rfl⟩
      · rw [if_neg hc]
        have hlt0 := not_le.mp hc
        left
        refine ⟨hstk, ?_, ?_, Or.inr ?_⟩
        · show (envStepN k e).current_level
              - sampleTime / (envStepN k e).release * (envStepN k e).sustain = _
          rw [hlev, hparams.2.2.2.1, hparams.2.2.1]
          push_cast
          ring
        · show (0:ℚ) ≤ (envStepN k e).current_level
              - sampleTime / (envStepN k e).release * (envStepN k e).sustain
          linarith
        · show (0:ℚ) < (envStepN k e).current_level
              - sampleTime / (envStepN k e).release * (envStepN k e).sustain
          linarith
    · rw [envStep_idle _ hstk]
      exact Or.inr ⟨hstk, rfl⟩

/-- In Release (with clamped parameters) the level never increases. -/
theorem release_mono (e : EnvelopeGenerator)
    (hst : e.stage = EnvelopeStage.Release) (hl0 : 0 ≤ e.current_level)
    (hs0 : 0 ≤ e.sustain) (hr : 1/1000 ≤ e.release) :
    ∀ j : ℕ, (envStepN (j+1) e).current_level ≤ (envStepN j e).current_level := by
  intro j
  have hparams := envStepN_params j e
  have hrelpos : (0:ℚ) < e.release := lt_of_lt_of_le (by norm_num) hr
  have hstep0 : 0 ≤ sampleTime / (envStepN j e).release * (envStepN j e).sustain := by
    rw [hparams.2.2.2.1, hparams.2.2.1]
    have h1 : (0:ℚ) ≤ sampleTime / e.release := by unfold sampleTime; positivity
    nlinarith
  rw [envStepN_succ]
  rcases release_traj e hst hl0 j with ⟨hstj, hlevj, hgej, _⟩ | ⟨hstj, hlevj⟩
  · rw [envStep_release _ hstj]
    by_cases hc : (envStepN j e).current_level
        - sampleTime / (envStepN j e).release * (envStepN j e).sustain ≤ 0
    · rw [if_pos hc]
      show (0:ℚ) ≤ (envStepN j e).current_level
      exact hgej
    · rw [if_neg hc]
      show (envStepN j e).current_level - _ ≤ (envStepN j e).current_level
      linarith
  · rw [envStep_idle _ hstj]
    show (0:ℚ) ≤ (envStepN j e).current_level
    rw [hlevj]

/-- In Release with strictly positive sustain (and clamped parameters,
level at most 1) the state reaches Idle with level exactly 0 within
`⌈release · 44100 / sustain⌉ + 1` samples. -/
theorem release_reach (e : EnvelopeGenerator)
    (hst : e.stage = EnvelopeStage.Release) (hl0 : 0 ≤ e.current_level)
    (hs0 : 0 < e.sustain) (hr : 1/1000 ≤ e.release) (hl1 : e.current_level ≤ 1) :
    ∃ k ≤ Nat.ceil (e.release * 44100 / e.sustain) + 1,
      (envStepN k e).stage = EnvelopeStage.Idle
      ∧ (envStepN k e).current_level = 0 := by
  set N := Nat.ceil (e.release * 44100 / e.sustain) + 1 with hN
  rcases release_traj e hst hl0 N with ⟨hstN, hlevN, hgeN, hstrict⟩ | hdone
  · exfalso
    have hrelpos : (0:ℚ) < e.release := lt_of_lt_of_le (by norm_num) hr
    set r := sampleTime / e.release * e.sustain with hrDef
    have hr0 : 0 ≤ r := by
      have h1 : (0:ℚ) ≤ sampleTime / e.release := by unfold sampleTime; positivity
      rw [hrDef]
      nlinarith
    have hNpos : N ≠ 0 := Nat.succ_ne_zero _
    have hslt : (0:ℚ) < e.current_level - (N:ℚ) * r := by
      rcases hstrict with h0 | hlt
      · exact absurd h0 hNpos
      · rw [hlevN] at hlt
        exact hlt
    have hNr : (N:ℚ) * r < 1 := by linarith
    have hkey : e.release * 44100 / e.sustain * r = 1 := by
      rw [hrDef]
      unfold sampleTime
      field_simp
      ring
    have hceil : e.release * 44100 / e.sustain
        ≤ (Nat.ceil (e.release * 44100 / e.sustain) : ℚ) := Nat.le_ceil _
    have hNge : e.release * 44100 / e.sustain + 1 ≤ (N:ℚ) := by
      rw [hN]
      push_cast
      linarith
    have h2 : (e.release * 44100 / e.sustain + 1) * r ≤ (N:ℚ) * r :=
      mul_le_mul_of_nonneg_right hNge hr0
    have h3 : (e.release * 44100 / e.sustain + 1) * r = 1 + r := by
      rw [add_mul, one_mul, hkey]
    linarith
  · exact ⟨N, le_refl _, hdone⟩

/-- C6 fails as stated: with the clamped parameter configuration
sustain = 0, release = 0.2 (both inside their domains) and a positive
level 1/2 held in Release, the per-sample Release decrement
`sampleTime/releaseTime × sustainLevel` is 0, so the state is a fixed
point of the per-sample update: after 882000 samples (100× the release
time constant) the level is still 1/2 and the stage still Release —
the level never converges to 0. -/
theorem c6_counterexample :
    (0 ≤ egStuck.sustain ∧ egStuck.sustain ≤ 1
      ∧ 1/1000 ≤ egStuck.release ∧ egStuck.release ≤ 10
      ∧ egStuck.stage = EnvelopeStage.Release)
    ∧ (envStepN 882000 egStuck).current_level = 1/2
    ∧ (envStepN 882000 egStuck).stage = EnvelopeStage.Release := by
  have hfix : envStep egStuck = egStuck := by
    simp [envStep, egStuck, egNew, sampleTime]
  rw [envStepN_fix hfix]
  refine ⟨⟨le_refl _, by norm_num [egStuck, egNew], by norm_num [egStuck, egNew],
    by norm_num [egStuck, egNew], rfl⟩, rfl, rfl⟩

/-- C6, amended: with parameters in their clamped domains and the level
within the reachable range, (a) from a Decay state whose level is at
least the sustain level and at most 1, the level is non-increasing every
sample and the state reaches Sustain at exactly the sustain level within
`⌈decay·44100⌉ + 1` samples; (b) from a Release state with
**strictly positive** sustain (the counterexample shows sustain = 0
diverges) and level in [0, 1], the level is non-increasing every sample
and the state reaches Idle at level 0 within
`⌈release·44100 / sustain⌉ + 1` samples, the per-sample Release
decrement being `sampleTime/releaseTime × sustainLevel`. -/
theorem c6_decay_release (e : EnvelopeGenerator) :
    (e.stage = EnvelopeStage.Decay → 0 ≤ e.sustain → e.sustain ≤ 1 →
      1/1000 ≤ e.decay → e.sustain ≤ e.current_level → e.current_level ≤ 1 →
      (∀ j : ℕ, (envStepN (j+1) e).current_level ≤ (envStepN j e).current_level)
      ∧ ∃ k ≤ Nat.ceil (e.decay * 44100) + 1,
          (envStepN k e).stage = EnvelopeStage.Sustain
          ∧ (envStepN k e).current_level = e.sustain)
    ∧ (e.stage = EnvelopeStage.Release → 0 < e.sustain → e.sustain ≤ 1 →
      1/1000 ≤ e.release → 0 ≤ e.current_level → e.current_level ≤ 1 →
      (∀ j : ℕ, (envStepN (j+1) e).current_level ≤ (envStepN j e).current_level)
      ∧ ∃ k ≤ Nat.ceil (e.release * 44100 / e.sustain) + 1,
          (envStepN k e).stage = EnvelopeStage.Idle
          ∧ (envStepN k e).current_level = 0) := by
  constructor
  · intro hst hs0 hs1 hd hls hl1
    exact ⟨decay_mono e hst hls hs1 hd, decay_reach e hst hls hs1 hd hl1⟩
  · intro hst hs0 hs1 hr hl0 hl1
    exact ⟨release_mono e hst hl0 (le_of_lt hs0) hr,
      release_reach e hst hl0 hs0 hr hl1⟩

/-- Witness for C6 (amended): both branches exercised on concrete
states — `egDecayTop` (Decay at level 1) and `egRel` (Release at level
1/2, sustain 1/2). -/
theorem c6_decay_release_witness :
    (egDecayTop.stage = EnvelopeStage.Decay ∧ 0 ≤ egDecayTop.sustain
      ∧ egDecayTop.sustain ≤ 1 ∧ 1/1000 ≤ egDecayTop.decay
      ∧ egDecayTop.sustain ≤ egDecayTop.current_level
      ∧ egDecayTop.current_level ≤ 1
      ∧ ((∀ j : ℕ, (envStepN (j+1) egDecayTop).current_level
            ≤ (envStepN j egDecayTop).current_level)
        ∧ ∃ k ≤ Nat.ceil (egDecayTop.decay * 44100) + 1,
            (envStepN k egDecayTop).stage = EnvelopeStage.Sustain
            ∧ (envStepN k egDecayTop).current_level = egDecayTop.sustain))
    ∧ (egRel.stage = EnvelopeStage.Release ∧ 0 < egRel.sustain
      ∧ egRel.sustain ≤ 1 ∧ 1/1000 ≤ egRel.release
      ∧ 0 ≤ egRel.current_level ∧ egRel.current_level ≤ 1
      ∧ ((∀ j : ℕ, (envStepN (j+1) egRel).current_level
            ≤ (envStepN j egRel).current_level)
        ∧ ∃ k ≤ Nat.ceil (egRel.release * 44100 / egRel.sustain) + 1,
            (envStepN k egRel).stage = EnvelopeStage.Idle
            ∧ (envStepN k egRel).current_level = 0)) := by
  constructor
  · refine ⟨rfl, by norm_num [egDecayTop, egNew], by norm_num [egDecayTop, egNew],
      by norm_num [egDecayTop, egNew], by norm_num [egDecayTop, egNew],
      by norm_num [egDecayTop, egNew], ?_⟩
    exact (c6_decay_release egDecayTop).1 rfl (by norm_num [egDecayTop, egNew])
      (by norm_num [egDecayTop, egNew]) (by norm_num [egDecayTop, egNew])
      (by norm_num [egDecayTop, egNew]) (by norm_num [egDecayTop, egNew])
  · refine ⟨rfl, by norm_num [egRel, egNew], by norm_num [egRel, egNew],
      by norm_num [egRel, egNew], by norm_num [egRel, egNew],
      by norm_num [egRel, egNew], ?_⟩
    exact (c6_decay_release egRel).2 rfl (by norm_num [egRel, egNew])
      (by norm_num [egRel, egNew]) (by norm_num [egRel, egNew])
      (by norm_num [egRel, egNew]) (by norm_num [egRel, egNew])

/-! ## Correctness of the topological sort model -/

/-- Value of `posIn` at the head element. -/
theorem posIn_cons_self (v : ℕ) (l : List ℕ) : posIn (v :: l) v = 0 := by
  simp [posIn]

/-- Value of `posIn` below a different head element. -/
theorem posIn_cons_ne (x : ℕ) (l : List ℕ) (v : ℕ) (h : x ≠ v) :
    posIn (x :: l) v = posIn l v + 1 := by
  simp [posIn, h]

/-- A successful `kahnAux` run returns a permutation of the remaining
nodes. -/
theorem kahnAux_perm (edges : List Edge) :
    ∀ (fuel : ℕ) (S l : List ℕ), kahnAux edges fuel S = some l → l.Perm S := by
  intro fuel
  induction fuel with
  | zero =>
    intro S l h
    unfold kahnAux at h
    split at h
    next hS =>
      injection h with h1
      subst h1
      rw [List.isEmpty_iff] at hS
      subst hS
      exact List.Perm.refl _
    next => exact Option.noConfusion h
  | succ fuel ih =>
    intro S l h
    unfold kahnAux at h
    split at h
    next hf =>
      split at h
      next hS =>
        injection h with h1
        subst h1
        rw [List.isEmpty_iff] at hS
        subst hS
        exact List.Perm.refl _
      next => exact Option.noConfusion h
    next v hf =>
      obtain ⟨l2, hk, rfl⟩ := Option.map_eq_some'.mp h
      have hv : v ∈ S := List.mem_of_find?_eq_some hf
      exact ((ih _ _ hk).cons v).trans (List.perm_cons_erase hv).symm

/-- A successful `kahnAux` run lists every edge's source before its
destination (for edges with both endpoints in the result). -/
theorem kahnAux_sorted (edges : List Edge) :
    ∀ (fuel : ℕ) (S l : List ℕ), S.Nodup → kahnAux edges fuel S = some l →
      ∀ ed ∈ edges, ed.src ∈ l → ed.dst ∈ l →
        posIn l ed.src < posIn l ed.dst := by
  intro fuel
  induction fuel with
  | zero =>
    intro S l _ h
    unfold kahnAux at h
    split at h
    next =>
      injection h with h1
      subst h1
      intro ed _ hsrc _
      exact absurd hsrc (List.not_mem_nil _)
    next => exact Option.noConfusion h
  | succ fuel ih =>
    intro S l hnd h
    unfold kahnAux at h
    split at h
    next hf =>
      split at h
      next =>
        injection h with h1
        subst h1
        intro ed _ hsrc _
        exact absurd hsrc (List.not_mem_nil _)
      next => exact Option.noConfusion h
    next v hf =>
      obtain ⟨l2, hk, rfl⟩ := Option.map_eq_some'.mp h
      have hv : v ∈ S := List.mem_of_find?_eq_some hf
      have hnoinc := List.find?_some hf
      have hperm2 : l2.Perm (S.erase v) := kahnAux_perm edges fuel _ _ hk
      intro ed hed hsrc hdst
      rcases List.mem_cons.mp hdst with hdv | hdst2
      · exfalso
        have hsrcS : ed.src ∈ S := by
          rcases List.mem_cons.mp hsrc with hsv | hs2
          · rw [hsv]; exact hv
          · exact List.mem_of_mem_erase (hperm2.mem_iff.mp hs2)
        unfold noIncoming at hnoinc
        rw [Bool.not_eq_true'] at hnoinc
        have hno := List.any_eq_false.mp hnoinc ed hed
        apply hno
        rw [Bool.and_eq_true]
        constructor
        · exact beq_iff_eq.mpr hdv
        · simpa using hsrcS
      · have hdvne : v ≠ ed.dst := by
          intro hcontra
          have : ed.dst ∈ S.erase v := hperm2.mem_iff.mp hdst2
          rw [← hcontra] at this
          exact (List.Nodup.not_mem_erase hnd) this
        rw [posIn_cons_ne _ _ _ hdvne]
        rcases List.mem_cons.mp hsrc with hsv | hs2
        · rw [hsv, posIn_cons_self]
          exact Nat.succ_pos _
        · have hsvne : v ≠ ed.src := by
            intro hcontra
            have : ed.src ∈ S.erase v := hperm2.mem_iff.mp hs2
            rw [← hcontra] at this
            exact (List.Nodup.not_mem_erase hnd) this
          rw [posIn_cons_ne _ _ _ hsvne]
          exact Nat.succ_lt_succ
            (ih (S.erase v) l2 (hnd.erase v) hk ed hed hs2 hdst2)

/-- If every remaining node of a nonempty set has an incoming edge from
within the set, the graph has a directed cycle (pick a predecessor of
each node and iterate; by pigeonhole some node repeats). -/
theorem exists_cycle_of_no_source (edges : List Edge) (S : List ℕ) (hne : S ≠ [])
    (hall : ∀ v ∈ S, noIncoming edges S v = false) : ∃ x, Reaches edges x x := by
  classical
  have hpick : ∀ v : ℕ, ∃ u, v ∈ S →
      (u ∈ S ∧ ∃ ed, ed ∈ edges ∧ ed.src = u ∧ ed.dst = v) := by
    intro v
    by_cases hv : v ∈ S
    · have h1 := hall v hv
      unfold noIncoming at h1
      rw [Bool.not_eq_false'] at h1
      obtain ⟨ed, hed, hp⟩ := List.any_eq_true.mp h1
      rw [Bool.and_eq_true] at hp
      refine ⟨ed.src, fun _ => ⟨?_, ed, hed, rfl, ?_⟩⟩
      · simpa using hp.2
      · exact beq_iff_eq.mp hp.1
    · exact ⟨v, fun h => absurd h hv⟩
  choose f hf using hpick
  have hiter : ∀ (k : ℕ) (v : ℕ), v ∈ S → f^[k] v ∈ S := by
    intro k
    induction k with
    | zero => intro v hv; simpa using hv
    | succ k ih =>
      intro v hv
      rw [Function.iterate_succ_apply]
      exact ih (f v) (hf v hv).1
  have hchain : ∀ (k : ℕ) (v : ℕ), v ∈ S → Reaches edges (f^[k+1] v) v := by
    intro k
    induction k with
    | zero =>
      intro v hv
      obtain ⟨ed, hed, hs, hd⟩ := (hf v hv).2
      rw [Function.iterate_one]
      exact Reaches.single ed hed hs hd
    | succ k ih =>
      intro v hv
      rw [Function.iterate_succ_apply]
      obtain ⟨ed, hed, hs, hd⟩ := (hf v hv).2
      exact Reaches.tail (ih (f v) (hf v hv).1) ed hed hs hd
  obtain ⟨x0, hx0⟩ := List.exists_mem_of_ne_nil S hne
  have hmaps : ∀ k ∈ Finset.range (S.toFinset.card + 1), f^[k] x0 ∈ S.toFinset := by
    intro k _
    rw [List.mem_toFinset]
    exact hiter k x0 hx0
  have hcard : S.toFinset.card < (Finset.range (S.toFinset.card + 1)).card := by
    simp
  obtain ⟨i, hi, j, hj, hij, hfeq⟩ :=
    Finset.exists_ne_map_eq_of_card_lt_of_maps_to hcard hmaps
  rcases Ne.lt_or_lt hij with hlt | hlt
  · refine ⟨f^[i] x0, ?_⟩
    have hw : f^[i] x0 ∈ S := hiter i x0 hx0
    have h2 := hchain (j - i - 1) (f^[i] x0) hw
    rw [← Function.iterate_add_apply] at h2
    have hexp : j - i - 1 + 1 + i = j := by omega
    rw [hexp, ← hfeq] at h2
    exact h2
  · refine ⟨f^[j] x0, ?_⟩
    have hw : f^[j] x0 ∈ S := hiter j x0 hx0
    have h2 := hchain (i - j - 1) (f^[j] x0) hw
    rw [← Function.iterate_add_apply] at h2
    have hexp : i - j - 1 + 1 + j = i := by omega
    rw [hexp, hfeq] at h2
    exact h2

/-- On an acyclic graph, `kahnAux` succeeds given enough fuel. -/
theorem kahnAux_complete (edges : List Edge) (hacyc : Acyclic edges) :
    ∀ (fuel : ℕ) (S : List ℕ), S.length ≤ fuel → (kahnAux edges fuel S).isSome := by
  intro fuel
  induction fuel with
  | zero =>
    intro S hlen
    have hS : S = [] := List.eq_nil_of_length_eq_zero (Nat.le_zero.mp hlen)
    subst hS
    simp [kahnAux]
  | succ fuel ih =>
    intro S hlen
    unfold kahnAux
    cases hf : S.find? (noIncoming edges S) with
    | none =>
      by_cases hS : S = []
      · subst hS
        simp
      · exfalso
        have hall : ∀ v ∈ S, ¬ (noIncoming edges S v = true) :=
          List.find?_eq_none.mp hf
        have hall2 : ∀ v ∈ S, noIncoming edges S v = false := by
          intro v hv
          cases hb : noIncoming edges S v
          · rfl
          · exact absurd hb (hall v hv)
        obtain ⟨x, hx⟩ := exists_cycle_of_no_source edges S hS hall2
        exact hacyc x hx
    | some v =>
      have hv : v ∈ S := List.mem_of_find?_eq_some hf
      have hlen2 : (S.erase v).length ≤ fuel := by
        rw [List.length_erase_of_mem hv]
        omega
      obtain ⟨l, hl⟩ := Option.isSome_iff_exists.mp (ih (S.erase v) hlen2)
      show (Option.map (fun l => v :: l) (kahnAux edges fuel (S.erase v))).isSome = true
      rw [hl]
      rfl

/-- The `petgraph::toposort` contract, success direction: on an acyclic
graph the model sort succeeds. -/
theorem kahn_complete (n : ℕ) (edges : List Edge) (hacyc : Acyclic edges) :
    (kahn n edges).isSome :=
  kahnAux_complete edges hacyc n (List.range n) (by simp)

/-- A successful sort of the `n`-node graph is a permutation of all
nodes that lists every in-range edge's source before its destination. -/
theorem kahn_topo (n : ℕ) (edges : List Edge) (l : List ℕ)
    (h : kahn n edges = some l) :
    l.Perm (List.range n)
    ∧ ∀ ed ∈ edges, ed.src < n → ed.dst < n →
        posIn l ed.src < posIn l ed.dst := by
  have hperm := kahnAux_perm edges n _ _ h
  refine ⟨hperm, ?_⟩
  intro ed hed hs hd
  exact kahnAux_sorted edges n _ _ (List.nodup_range n) h ed hed
    (hperm.mem_iff.mpr (List.mem_range.mpr hs))
    (hperm.mem_iff.mpr (List.mem_range.mpr hd))

/-- The `petgraph::toposort` contract, failure direction (contrapositive):
if the sort of a graph with in-range edges succeeds, the graph is
acyclic; hence the sort fails on every cyclic graph. -/
theorem kahn_acyclic (n : ℕ) (edges : List Edge) (l : List ℕ)
    (h : kahn n edges = some l)
    (hb : ∀ ed ∈ edges, ed.src < n ∧ ed.dst < n) : Acyclic edges := by
  intro v hv
  have hmono : ∀ a b, Reaches edges a b → posIn l a < posIn l b := by
    intro a b hr
    induction hr with
    | single ed hmem hs hd =>
      subst hs
      subst hd
      exact (kahn_topo n edges l h).2 ed hmem (hb ed hmem).1 (hb ed hmem).2
    | tail hr ed hmem hs hd ih =>
      subst hs
      subst hd
      exact lt_trans ih
        ((kahn_topo n edges l h).2 ed hmem (hb ed hmem).1 (hb ed hmem).2)
  exact lt_irrefl _ (hmono v v hv)

/-! ## Engine invariants -/

/-- A found node index is in range. -/
theorem findNodeIdx_lt (w : ℕ) :
    ∀ (l : List ℕ) (i : ℕ), findNodeIdx w l = some i → i < l.length := by
  intro l
  induction l with
  | nil => intro i h; exact Option.noConfusion h
  | cons x xs ih =>
    intro i h
    unfold findNodeIdx at h
    split at h
    next =>
      injection h with h1
      subst h1
      exact Nat.succ_pos _
    next =>
      obtain ⟨j, hj, rfl⟩ := Option.map_eq_some'.mp h
      exact Nat.succ_lt_succ (ih j hj)

/-- Invariants maintained by the engine's mutating interface: every
stored edge's endpoints are valid node indices, every cached-order entry
is a valid node index, and whenever the current graph is acyclic the
cached order is exactly the current toposort result. -/
theorem reachable_inv {M : Type} (e : AudioEngine M) (h : Reachable e) :
    (∀ ed ∈ e.edges, ed.src < e.nodeIds.length ∧ ed.dst < e.nodeIds.length)
    ∧ (∀ v ∈ e.processing_order, v < e.nodeIds.length)
    ∧ (Acyclic e.edges →
        kahn e.nodeIds.length e.edges = some e.processing_order) := by
  induction h with
  | new sr bs =>
    refine ⟨?_, ?_, ?_⟩
    · intro ed hed
      exact absurd hed (List.not_mem_nil _)
    · intro v hv
      exact absurd hv (List.not_mem_nil _)
    · intro _
      rfl
  | add id m hre hfresh ih =>
    rename_i e0
    obtain ⟨ihb, iho, ihk⟩ := ih
    show _ ∧ _ ∧ _
    unfold addModule updateProcessingOrder
    cases hk : kahn (e0.nodeIds ++ [id]).length e0.edges with
    | some o =>
      simp only [hk]
      refine ⟨?_, ?_, ?_⟩
      · intro ed hed
        have hb := ihb ed hed
        simp only [List.length_append, List.length_cons, List.length_nil]
        omega
      · intro v hv
        have hperm := (kahn_topo _ _ _ hk).1
        exact List.mem_range.mp (hperm.mem_iff.mp hv)
      · intro _
        simp [hk]
    | none =>
      simp only [hk]
      refine ⟨?_, ?_, ?_⟩
      · intro ed hed
        have hb := ihb ed hed
        simp only [List.length_append, List.length_cons, List.length_nil]
        omega
      · intro v hv
        have hb := iho v hv
        simp only [List.length_append, List.length_cons, List.length_nil]
        omega
      · intro hacyc
        have hsome := kahn_complete (e0.nodeIds ++ [id]).length e0.edges hacyc
        rw [hk] at hsome
        simp at hsome
  | connect s so d di hre ih =>
    rename_i e0
    obtain ⟨ihb, iho, ihk⟩ := ih
    show _ ∧ _ ∧ _
    unfold connectModules
    cases hs : findNodeIdx s e0.nodeIds with
    | none => exact ⟨ihb, iho, ihk⟩
    | some si =>
      cases hd : findNodeIdx d e0.nodeIds with
      | none => exact ⟨ihb, iho, ihk⟩
      | some dsti =>
        unfold updateProcessingOrder
        cases hk : kahn e0.nodeIds.length (e0.edges ++ [⟨si, dsti, so, di⟩]) with
        | some o =>
          simp only [hk]
          refine ⟨?_, ?_, ?_⟩
          · intro ed hed
            rcases List.mem_append.mp hed with hold | hnew
            · exact ihb ed hold
            · rcases List.mem_singleton.mp hnew with rfl
              exact ⟨findNodeIdx_lt s _ _ hs, findNodeIdx_lt d _ _ hd⟩
          · intro v hv
            have hperm := (kahn_topo _ _ _ hk).1
            exact List.mem_range.mp (hperm.mem_iff.mp hv)
          · intro _
            simp [hk]
        | none =>
          simp only [hk]
          refine ⟨?_, ?_, ?_⟩
          · intro ed hed
            rcases List.mem_append.mp hed with hold | hnew
            · exact ihb ed hold
            · rcases List.mem_singleton.mp hnew with rfl
              exact ⟨findNodeIdx_lt s _ _ hs, findNodeIdx_lt d _ _ hd⟩
          · exact iho
          · intro hacyc
            have hsome := kahn_complete e0.nodeIds.length
              (e0.edges ++ [⟨si, dsti, so, di⟩]) hacyc
            rw [hk] at hsome
            simp at hsome

/-! ## C3: the cached processing order on acyclic graphs -/

/-- C3: for every engine state reachable through `add_module` /
`connect_modules` whose connection graph is acyclic, the cached
processing order is a permutation of all registered node indices in
which every edge's source appears strictly before its destination. -/
theorem c3_topological_order {M : Type} (e : AudioEngine M) (hre : Reachable e)
    (hacyc : Acyclic e.edges) :
    e.processing_order.Perm (List.range e.nodeIds.length)
    ∧ ∀ ed ∈ e.edges,
        posIn e.processing_order ed.src < posIn e.processing_order ed.dst := by
  obtain ⟨hb, _, hk⟩ := reachable_inv e hre
  have h := hk hacyc
  have ht := kahn_topo _ _ _ h
  refine ⟨ht.1, ?_⟩
  intro ed hed
  exact ht.2 ed hed (hb ed hed).1 (hb ed hed).2

/-- Witness for C3: the two-module engine with the single edge 0 → 1. -/
theorem c3_topological_order_witness :
    Reachable engAcyclic ∧ Acyclic engAcyclic.edges
    ∧ (engAcyclic.processing_order.Perm (List.range engAcyclic.nodeIds.length)
      ∧ ∀ ed ∈ engAcyclic.edges,
          posIn engAcyclic.processing_order ed.src
            < posIn engAcyclic.processing_order ed.dst) := by
  have hre : Reachable engAcyclic :=
    Reachable.connect 0 0 1 0
      (Reachable.add 1 ()
        (Reachable.add 0 () (Reachable.new 44100 2) (by decide))
        (by decide))
  have hacyc : Acyclic engAcyclic.edges :=
    kahn_acyclic 2 engAcyclic.edges [0, 1] rfl (by decide)
  exact ⟨hre, hacyc, c3_topological_order engAcyclic hre hacyc⟩

/-! ## C2: cycle-creating connections -/

/-- Function `update_processing_order` never touches the connection set. -/
theorem updateProcessingOrder_edges {M : Type} (e : AudioEngine M) :
    (updateProcessingOrder e).edges = e.edges := by
  unfold updateProcessingOrder
  split
  next => rfl
  next => rfl

/-- When the toposort fails, `update_processing_order` keeps the
previous cached order. -/
theorem updateProcessingOrder_order_none {M : Type} (e : AudioEngine M)
    (h : kahn e.nodeIds.length e.edges = none) :
    (updateProcessingOrder e).processing_order = e.processing_order := by
  unfold updateProcessingOrder
  split
  next o hk =>
    rw [h] at hk
    exact Option.noConfusion hk
  next => rfl

/-- Reduction of `connect_modules` when both identities are found: it reduces to appending
the edge and recomputing the order. -/
theorem connectModules_found {M : Type} (e : AudioEngine M)
    (s so d di si dsti : ℕ)
    (hs : findNodeIdx s e.nodeIds = some si)
    (hd : findNodeIdx d e.nodeIds = some dsti) :
    connectModules e s so d di
      = updateProcessingOrder { e with edges := e.edges ++ [⟨si, dsti, so, di⟩] } := by
  unfold connectModules
  rw [hs, hd]

/-- C2 fails as stated: starting from the acyclic two-module engine with
edge 0 → 1, the call `connect_modules(1, 0, 0, 0)` would create a
directed cycle, yet afterwards the connection set HAS changed (the
cycle-closing edge was stored; nothing is reported — the function
returns no error value), while only the cached processing order kept its
old value. -/
theorem c2_counterexample :
    (∃ v, Reaches (connectModules engAcyclic 1 0 0 0).edges v v)
    ∧ (connectModules engAcyclic 1 0 0 0).edges ≠ engAcyclic.edges
    ∧ (connectModules engAcyclic 1 0 0 0).processing_order
        = engAcyclic.processing_order := by
  refine ⟨⟨0, ?_⟩, by decide, rfl⟩
  have h1 : (connectModules engAcyclic 1 0 0 0).edges
      = [⟨0, 1, 0, 0⟩, ⟨1, 0, 0, 0⟩] := rfl
  rw [h1]
  exact Reaches.tail
    (Reaches.single ⟨0, 1, 0, 0⟩ (by decide) rfl rfl)
    ⟨1, 0, 0, 0⟩ (by decide) rfl rfl

/-- C2, amended: when both identities resolve and the new edge would
create a directed cycle, `connect_modules` still appends the edge to the
connection set and reports nothing (its return type carries no error);
only the cached processing order is left unchanged, retaining the last
valid order. -/
theorem c2_cycle_edge_added_order_stale {M : Type} (e : AudioEngine M)
    (s so d di si dsti : ℕ) (hre : Reachable e)
    (hs : findNodeIdx s e.nodeIds = some si)
    (hd : findNodeIdx d e.nodeIds = some dsti)
    (hcyc : ∃ v, Reaches (e.edges ++ [⟨si, dsti, so, di⟩]) v v) :
    (connectModules e s so d di).edges = e.edges ++ [⟨si, dsti, so, di⟩]
    ∧ (connectModules e s so d di).processing_order = e.processing_order := by
  obtain ⟨hb, _, _⟩ := reachable_inv e hre
  have hbnew : ∀ ed ∈ e.edges ++ [⟨si, dsti, so, di⟩],
      ed.src < e.nodeIds.length ∧ ed.dst < e.nodeIds.length := by
    intro ed hed
    rcases List.mem_append.mp hed with hold | hnew
    · exact hb ed hold
    · rcases List.mem_singleton.mp hnew with rfl
      exact ⟨findNodeIdx_lt s _ _ hs, findNodeIdx_lt d _ _ hd⟩
  have hnone : kahn e.nodeIds.length (e.edges ++ [⟨si, dsti, so, di⟩]) = none := by
    cases hk : kahn e.nodeIds.length (e.edges ++ [⟨si, dsti, so, di⟩]) with
    | none => rfl
    | some l =>
      obtain ⟨v, hv⟩ := hcyc
      exact absurd hv (kahn_acyclic _ _ _ hk hbnew v)
  rw [connectModules_found e s so d di si dsti hs hd]
  constructor
  · rw [updateProcessingOrder_edges]
  · rw [updateProcessingOrder_order_none _ hnone]

/-- Witness for C2 (amended): the concrete cycle-closing call on the
two-module engine. -/
theorem c2_cycle_edge_added_order_stale_witness :
    (Reachable engAcyclic
      ∧ findNodeIdx 1 engAcyclic.nodeIds = some 1
      ∧ findNodeIdx 0 engAcyclic.nodeIds = some 0
      ∧ (∃ v, Reaches (engAcyclic.edges ++ [⟨1, 0, 0, 0⟩]) v v))
    ∧ (connectModules engAcyclic 1 0 0 0).edges
        = engAcyclic.edges ++ [⟨1, 0, 0, 0⟩]
    ∧ (connectModules engAcyclic 1 0 0 0).processing_order
        = engAcyclic.processing_order := by
  have hre : Reachable engAcyclic :=
    Reachable.connect 0 0 1 0
      (Reachable.add 1 ()
        (Reachable.add 0 () (Reachable.new 44100 2) (by decide))
        (by decide))
  have hcyc : ∃ v, Reaches (engAcyclic.edges ++ [⟨1, 0, 0, 0⟩]) v v := by
    refine ⟨0, ?_⟩
    have h1 : engAcyclic.edges ++ [⟨1, 0, 0, 0⟩]
        = [⟨0, 1, 0, 0⟩, ⟨1, 0, 0, 0⟩] := rfl
    rw [h1]
    exact Reaches.tail
      (Reaches.single ⟨0, 1, 0, 0⟩ (by decide) rfl rfl)
      ⟨1, 0, 0, 0⟩ (by decide) rfl rfl
  have hmain := c2_cycle_edge_added_order_stale engAcyclic 1 0 0 0 1 0 hre rfl rfl hcyc
  exact ⟨⟨hre, rfl, rfl, hcyc⟩, hmain.1, hmain.2⟩

/-! ## C8: port-index validation -/

/-- C8 fails as stated: `connect_modules(0, 0, 1, 5)` on two
envelope-generator modules (a single declared input port each) is
accepted — the out-of-range edge is stored and no `PortIndexOutOfRange`
(or any other value) is reported — and the subsequent `process()` hits
the out-of-bounds slot write `inputs[5]` (a Rust panic, modelled as
`none`). -/
theorem c8_counterexample :
    engBadPort.edges = [⟨0, 1, 0, 5⟩]
    ∧ synthInputCount (SynthModule.eg egNew) = 1
    ∧ (processEngine (synthImpl ftanZero) engBadPort).2 = none :=
  ⟨rfl, rfl, rfl⟩

/-- C8, amended: `connect_modules` performs no validation of port
indices: whenever both identities resolve it stores the edge with
whatever `(source_output, dest_input)` pair it was given and returns
nothing, so an out-of-range index is not rejected at connect time and
instead surfaces as an out-of-bounds input-slot access during
`process()` (see the counterexample). -/
theorem c8_connect_unvalidated {M : Type} (e : AudioEngine M)
    (s so d di si dsti : ℕ)
    (hs : findNodeIdx s e.nodeIds = some si)
    (hd : findNodeIdx d e.nodeIds = some dsti) :
    (connectModules e s so d di).edges = e.edges ++ [⟨si, dsti, so, di⟩] := by
  rw [connectModules_found e s so d di si dsti hs hd, updateProcessingOrder_edges]

/-- Witness for C8 (amended): the out-of-range connection is stored
verbatim. -/
theorem c8_connect_unvalidated_witness :
    (findNodeIdx 0 engTwoEG.nodeIds = some 0
      ∧ findNodeIdx 1 engTwoEG.nodeIds = some 1)
    ∧ (connectModules engTwoEG 0 0 1 5).edges
        = engTwoEG.edges ++ [⟨0, 1, 0, 5⟩] :=
  ⟨⟨rfl, rfl⟩, c8_connect_unvalidated engTwoEG 0 0 1 5 0 1 rfl rfl⟩

/-! ## C9: the returned buffer -/

/-- The VCO loop emits exactly as many samples as requested. -/
theorem sergeVCOrun_length (freq : ℚ) :
    ∀ (n : ℕ) (phase : ℚ), ((sergeVCOrun freq n phase).2).length = n := by
  intro n
  induction n with
  | zero => intro phase; rfl
  | succ n ih =>
    intro phase
    simp only [sergeVCOrun, List.length_cons]
    rw [ih]

/-- The VCF loop emits exactly as many samples as requested. -/
theorem sergeVCFrun_length (alpha input : ℚ) :
    ∀ (n : ℕ) (last : ℚ), ((sergeVCFrun alpha input n last).2).length = n := by
  intro n
  induction n with
  | zero => intro last; rfl
  | succ n ih =>
    intro last
    simp only [sergeVCFrun, List.length_cons]
    rw [ih]

/-- The envelope loop emits exactly as many samples as requested. -/
theorem envProcessRun_length :
    ∀ (n : ℕ) (e : EnvelopeGenerator), ((envProcessRun n e).2).length = n := by
  intro n
  induction n with
  | zero => intro e; rfl
  | succ n ih =>
    intro e
    simp only [envProcessRun, List.length_cons]
    rw [ih]

/-- Every `Module::process` variant writes exactly the requested number
of samples (in Rust the output buffer has fixed length `buffer_size` and
is mutated in place). -/
theorem synthProc_length (ftan : ℚ → ℚ) (m : SynthModule) (ins : List ℚ) (n : ℕ) :
    ((synthProc ftan m ins n).2).length = n := by
  cases m with
  | vco s =>
    show ((sergeVCOprocess s ins n).2).length = n
    unfold sergeVCOprocess
    exact sergeVCOrun_length _ n s.phase
  | vcf s =>
    show ((sergeVCFprocess ftan s ins n).2).length = n
    unfold sergeVCFprocess
    exact sergeVCFrun_length _ _ n s.last_output
  | eg s =>
    show ((envProcess s ins n).2).length = n
    exact envProcessRun_length n s

/-- A successful lookup names an entry of the association list. -/
theorem lookupAssoc_mem {α : Type} (l : List (ℕ × α)) (k : ℕ) (v : α)
    (h : lookupAssoc l k = some v) : ∃ p ∈ l, p.2 = v := by
  unfold lookupAssoc at h
  cases hf : l.find? (fun p => p.1 == k) with
  | none =>
    rw [hf] at h
    exact Option.noConfusion h
  | some p =>
    rw [hf] at h
    injection h with h1
    exact ⟨p, List.mem_of_find?_eq_some hf, h1⟩

/-- Looking up the key just inserted returns the inserted value. -/
theorem lookupAssoc_insertAssoc {α : Type} (l : List (ℕ × α)) (k : ℕ) (v : α) :
    lookupAssoc (insertAssoc l k v) k = some v := by
  simp [lookupAssoc, insertAssoc]

/-- Members of `insertAssoc` are the new pair or old members. -/
theorem mem_insertAssoc {α : Type} (l : List (ℕ × α)) (k : ℕ) (v : α)
    (p : ℕ × α) (h : p ∈ insertAssoc l k v) : p = (k, v) ∨ p ∈ l := by
  rcases List.mem_cons.mp h with h1 | h2
  · exact Or.inl h1
  · exact Or.inr (List.mem_of_mem_filter h2)

/-- Anatomy of a successful `processNode`: the module was registered,
and the stored output is the one its `process` produced this cycle. -/
theorem processNode_outs {M : Type} (impl : ModuleImpl M) (bs : ℕ)
    (nodeIds : List ℕ) (edges : List Edge) (mods : List (ℕ × M))
    (outs : List (ℕ × List ℚ)) (v : ℕ)
    (st0 : List (ℕ × M) × List (ℕ × List ℚ))
    (h : processNode impl bs nodeIds edges mods outs v = some st0) :
    ∃ m ins, lookupAssoc mods (nodeIds.getD v 0) = some m
      ∧ st0.1 = insertAssoc mods (nodeIds.getD v 0) (impl.proc m ins bs).1
      ∧ st0.2 = insertAssoc outs (nodeIds.getD v 0) (impl.proc m ins bs).2 := by
  unfold processNode at h
  simp only [] at h
  cases hm : lookupAssoc mods (nodeIds.getD v 0) with
  | none =>
    rw [hm] at h
    exact Option.noConfusion h
  | some m =>
    rw [hm] at h
    simp only [] at h
    cases hg : gatherInputs nodeIds outs
        ((edges.filter (fun ed => ed.dst == v)).reverse)
        (List.replicate (impl.inputCount m) (List.replicate bs (0:ℚ))) with
    | none =>
      rw [hg] at h
      exact Option.noConfusion h
    | some ins =>
      rw [hg] at h
      injection h with h1
      exact ⟨m, ins.flatten, rfl, by rw [← h1], by rw [← h1]⟩

/-- Along a successful walk, every recorded output buffer has the
engine's buffer size. -/
theorem processLoop_outs_length {M : Type} (impl : ModuleImpl M) (bs : ℕ)
    (nodeIds : List ℕ) (edges : List Edge)
    (hlen : ∀ (m : M) (ins : List ℚ) (n : ℕ), ((impl.proc m ins n).2).length = n) :
    ∀ (order : List ℕ) (mods : List (ℕ × M)) (outs : List (ℕ × List ℚ)),
      (∀ p ∈ outs, (p.2).length = bs) →
      ∀ st, processLoop impl bs nodeIds edges order mods outs = some st →
        ∀ p ∈ st.2, (p.2).length = bs := by
  intro order
  induction order with
  | nil =>
    intro mods outs hout st h
    injection h with h1
    rw [← h1]
    exact hout
  | cons v rest ih =>
    intro mods outs hout st h
    unfold processLoop at h
    cases hn : processNode impl bs nodeIds edges mods outs v with
    | none =>
      rw [hn] at h
      exact Option.noConfusion h
    | some st0 =>
      rw [hn] at h
      refine ih st0.1 st0.2 ?_ st h
      obtain ⟨m, ins, hm, h1, h2⟩ := processNode_outs impl bs nodeIds edges
        mods outs v st0 hn
      intro p hp
      rw [h2] at hp
      rcases mem_insertAssoc _ _ _ p hp with hnew | hold
      · rw [hnew]
        exact hlen m ins bs
      · exact hout p hold

/-- Along a successful walk, the last node's identity maps to a recorded
output. -/
theorem processLoop_last {M : Type} (impl : ModuleImpl M) (bs : ℕ)
    (nodeIds : List ℕ) (edges : List Edge) :
    ∀ (order : List ℕ) (mods : List (ℕ × M)) (outs : List (ℕ × List ℚ)) st v,
      processLoop impl bs nodeIds edges order mods outs = some st →
      order.getLast? = some v →
      (lookupAssoc st.2 (nodeIds.getD v 0)).isSome := by
  intro order
  induction order with
  | nil =>
    intro mods outs st v h hl
    exact Option.noConfusion hl
  | cons w rest ih =>
    intro mods outs st v h hl
    unfold processLoop at h
    cases hn : processNode impl bs nodeIds edges mods outs w with
    | none =>
      rw [hn] at h
      exact Option.noConfusion h
    | some st0 =>
      rw [hn] at h
      cases rest with
      | nil =>
        have hv : v = w := by
          rw [List.getLast?_singleton] at hl
          injection hl with h1
          exact h1.symm
        have hst : st0 = st := by
          injection h with h1
        obtain ⟨m, ins, hm, h1, h2⟩ := processNode_outs impl bs nodeIds edges
          mods outs w st0 hn
        rw [← hst, hv, h2, lookupAssoc_insertAssoc]
        rfl
      | cons w2 rest2 =>
        rw [List.getLast?_cons_cons] at hl
        exact ih st0.1 st0.2 st v h hl

/-- C9: whenever `process()` returns (it panics only on an invalid
stored port index, see C8), the returned buffer has exactly
`buffer_size` samples; with no modules registered it returns the
all-zero buffer; and with a nonempty cached order the returned buffer is
precisely the output recorded this cycle for the module in the last
position of the cached processing order (not the zero fallback). -/
theorem c9_process_output {M : Type} (impl : ModuleImpl M) (e : AudioEngine M)
    (hlen : ∀ (m : M) (ins : List ℚ) (n : ℕ), ((impl.proc m ins n).2).length = n)
    (hre : Reachable e) :
    (∀ out, (processEngine impl e).2 = some out → out.length = e.buffer_size)
    ∧ (e.nodeIds = [] →
        (processEngine impl e).2 = some (List.replicate e.buffer_size 0))
    ∧ (∀ v out, e.processing_order.getLast? = some v →
        (processEngine impl e).2 = some out →
        ∃ st, processLoop impl e.buffer_size e.nodeIds e.edges
            e.processing_order e.modules [] = some st
          ∧ lookupAssoc st.2 (e.nodeIds.getD v 0) = some out) := by
  refine ⟨?_, ?_, ?_⟩
  · intro out hout
    unfold processEngine at hout
    cases hloop : processLoop impl e.buffer_size e.nodeIds e.edges
        e.processing_order e.modules [] with
    | none =>
      rw [hloop] at hout
      exact Option.noConfusion hout
    | some st =>
      rw [hloop] at hout
      simp only [] at hout
      injection hout with h1
      rw [← h1]
      cases hlast : e.processing_order.getLast? with
      | none => simp [hlast]
      | some v =>
        simp only [hlast]
        cases hlk : lookupAssoc st.2 (e.nodeIds.getD v 0) with
        | none => simp
        | some buf =>
          simp only [Option.getD_some]
          obtain ⟨p, hp, hpv⟩ := lookupAssoc_mem _ _ _ hlk
          rw [← hpv]
          exact processLoop_outs_length impl e.buffer_size e.nodeIds e.edges
            hlen e.processing_order e.modules [] (by intro p hp; cases hp)
            st hloop p hp
  · intro hnil
    have hord : e.processing_order = [] := by
      cases horder : e.processing_order with
      | nil => rfl
      | cons a l =>
        have hm := (reachable_inv e hre).2.1 a
          (by rw [horder]; exact List.mem_cons_self a l)
        rw [hnil] at hm
        simp at hm
    unfold processEngine
    rw [hord]
    rfl
  · intro v out hlast hout
    unfold processEngine at hout
    cases hloop : processLoop impl e.buffer_size e.nodeIds e.edges
        e.processing_order e.modules [] with
    | none =>
      rw [hloop] at hout
      exact Option.noConfusion hout
    | some st =>
      rw [hloop] at hout
      simp only [hlast] at hout
      obtain ⟨buf, hbuf⟩ := Option.isSome_iff_exists.mp
        (processLoop_last impl e.buffer_size e.nodeIds e.edges
          e.processing_order e.modules [] st v hloop hlast)
      rw [hbuf] at hout
      simp only [Option.getD_some] at hout
      injection hout with h1
      rw [← h1]
      exact ⟨st, rfl, hbuf⟩

/-- Witness for C9: a single envelope-generator module in an engine with
buffer size 4. -/
theorem c9_process_output_witness :
    ((∀ (m : SynthModule) (ins : List ℚ) (n : ℕ),
        (((synthImpl ftanZero).proc m ins n).2).length = n)
      ∧ Reachable engOneEG)
    ∧ ((∀ out, (processEngine (synthImpl ftanZero) engOneEG).2 = some out →
          out.length = engOneEG.buffer_size)
      ∧ (engOneEG.nodeIds = [] →
          (processEngine (synthImpl ftanZero) engOneEG).2
            = some (List.replicate engOneEG.buffer_size 0))
      ∧ (∀ v out, engOneEG.processing_order.getLast? = some v →
          (processEngine (synthImpl ftanZero) engOneEG).2 = some out →
          ∃ st, processLoop (synthImpl ftanZero) engOneEG.buffer_size
              engOneEG.nodeIds engOneEG.edges engOneEG.processing_order
              engOneEG.modules [] = some st
            ∧ lookupAssoc st.2 (engOneEG.nodeIds.getD v 0) = some out)) := by
  have hlen : ∀ (m : SynthModule) (ins : List ℚ) (n : ℕ),
      (((synthImpl ftanZero).proc m ins n).2).length = n :=
    fun m ins n => synthProc_length ftanZero m ins n
  have hre : Reachable engOneEG :=
    Reachable.add 7 (SynthModule.eg egNew) (Reachable.new 44100 4) (by decide)
  exact ⟨⟨hlen, hre⟩, c9_process_output (synthImpl ftanZero) engOneEG hlen hre⟩
